import Mathlib

/-!
Shallow embedding of `src/src/calibre/gui2/tweak_book/widgets.py` (calibre
ebook-editor dialog widgets) and proofs about the behaviours documented in
the specification: the highlighted-text rendering rule, the quick-open
result windowing and selection navigation, the semantics-diff map, dialog
validation and geometry persistence, and the import-foreign data paths.

Strings are modelled as `List Char`; Python integers as `Int` (positions may
be the sentinel `-1`); Python dicts as association lists.
-/

namespace CalibreWidgets

/-! ### XML escaping and character access (externals, modelled) -/

/-- Modelled from the spec: `prepare_string_for_xml` (imported from the
`calibre` package, not under `src/`) XML-escapes the special characters,
replacing an ampersand, a less-than and a greater-than sign by their XML
entities. Per-character expansion of a single character. -/
def escape_char (c : Char) : List Char :=
  if c = '&' then "&amp;".toList
  else if c = '<' then "&lt;".toList
  else if c = '>' then "&gt;".toList
  else [c]

/-- Modelled from the spec: `prepare_string_for_xml` applied to a whole
string, escaping every occurrence of the three XML-special characters. -/
def prepare_string_for_xml (text : List Char) : List Char :=
  text.flatMap escape_char

/-- Modelled from the spec: `get_char` (from `calibre.utils.matcher`, not
under `src/`) is a grapheme-aware accessor returning the character at the
given index as a string, so that a multi-byte character is one emphasis
unit. A Lean `Char` is a full code point, so the accessor returns the
one-element list at the index (empty when out of range). -/
def get_char (text : List Char) (p : Nat) : List Char :=
  match text[p]? with
  | some c => [c]
  | none => []

/-! ### The highlight rendering core (`make_highlighted_text`) -/

/-- The opening markup `<span style="...">` inserted before an emphasized
character in `make_highlighted_text`. -/
def spanOpen (emph : List Char) : List Char :=
  "<span style=\"".toList ++ emph ++ "\">".toList

/-- The closing markup `</span>` inserted after an emphasized character. -/
def spanClose : List Char := "</span>".toList

/-- `Results.EMPH`, the fixed emphasis style used by the quick-open result
list and the filterable-names delegate. -/
def resultsEMPH : List Char := "color:magenta; font-weight:bold".toList

/-- `sorted(set(positions) - {-1}, reverse=True)`: deduplicate, drop the
sentinel `-1`, and sort in descending order. -/
def sortedPositions (positions : List Int) : List Int :=
  List.insertionSort (fun a b => a ≥ b) ((positions.dedup).filter (fun p => p ≠ -1))

/-- One loop iteration of `make_highlighted_text`: wrap the character at
(Nat) position `p` of the current text in an emphasis span:
`text[:p] + '<span style="emph">' + ch + '</span>' + text[p+len(ch):]`. -/
def emphasize_at (emph text : List Char) (p : Nat) : List Char :=
  let ch := get_char text p
  text.take p ++ spanOpen emph ++ ch ++ spanClose ++ text.drop (p + ch.length)

/-- `make_highlighted_text(emph, text, positions)` from the source: sanitize
and descending-sort the positions, XML-escape the text, then wrap the
character at each position (processed left-fold, hence largest first). -/
def make_highlighted_text (emph text : List Char) (positions : List Int) : List Char :=
  (sortedPositions positions).foldl
    (fun t p => emphasize_at emph t p.toNat)
    (prepare_string_for_xml text)

/-- Specification-side rendering: walk the (already escaped) text with a
running index and wrap exactly the characters whose index is a listed
position. Used to state that processing positions in descending order
emphasizes each original character in place. -/
def wrap_each (emph : List Char) (ps : List Int) (text : List Char) (i : Nat) : List Char :=
  match text with
  | [] => []
  | c :: rest =>
      (if (i : Int) ∈ ps then spanOpen emph ++ [c] ++ spanClose else [c]) ++
        wrap_each emph ps rest (i + 1)

/-! ### `NamesDelegate.paint` highlight path -/

/-- What `NamesDelegate.paint` draws for one item: either the raw text via
`painter.drawText` (no emphasis at all) or rich text built from
`make_highlighted_text` wrapped in a body element. -/
inductive PaintOutput : Type
  | plain (text : List Char)
  | richtext (html : List Char)
deriving DecidableEq

/-- The branch structure of `NamesDelegate.paint` (lines 470-478): when the
position collection is `None` or contains `-1`, the raw text is drawn plain;
otherwise the positions are sanitized/sorted and the highlighted markup is
rendered as rich text inside `<body>...</body>`. -/
def namesDelegate_render (text : List Char) (positions : Option (List Int)) : PaintOutput :=
  match positions with
  | none => PaintOutput.plain text
  | some ps =>
      if (-1 : Int) ∈ ps then PaintOutput.plain text
      else
        PaintOutput.richtext
          ("<body>".toList ++
            make_highlighted_text resultsEMPH text (sortedPositions ps) ++
            "</body>".toList)

/-! ### The `Results` widget state -/

/-- The mutable state of the `Results` widget that the claims speak about:
the number of installed results, the current selection index, the maximal
selectable index, and the mouse-hover index (all `-1`-capable Python ints). -/
structure ResultsState : Type where
  num_results : Nat
  current_result : Int
  max_result : Int
  mouse_hover_result : Int
deriving DecidableEq

/-- `Results.change_current(delta)` (lines 304-310): a no-op on an empty
result set; otherwise move the selection by `delta` only when the new index
stays within `[0, max_result]`. -/
def change_current (s : ResultsState) (delta : Int) : ResultsState :=
  if s.num_results = 0 then s
  else
    let nc := s.current_result + delta
    if 0 ≤ nc ∧ nc ≤ s.max_result then { s with current_result := nc } else s

/-- The state installed by `Results.__call__(results)` (lines 312-325) for a
result set of size `N`: selection resets to `0` (or `-1` when empty),
`max_result = min(10, N - 1)`, and the hover index resets to `-1`. -/
def results_call_state (N : Nat) : ResultsState :=
  { num_results := N
    current_result := if 0 < N then 0 else -1
    max_result := min 10 ((N : Int) - 1)
    mouse_hover_result := -1 }

/-- The `Results.paintEvent` row loop (lines 339-358) as it affects
`max_result`: rows are visited in order with their heights; a row whose top
plus height would cross `bottom` stops the loop; each laid-out row `i` sets
`max_result := i` and advances the offset by the row height plus the margin
(`MARGIN // 2` above and below, `MARGIN = 4`). -/
def paint_loop (heights : List Nat) (bottom y i : Nat) (mr : Int) : Int :=
  match heights with
  | [] => mr
  | h :: rest =>
      if bottom < y + h then mr
      else paint_loop rest bottom (y + h + 4) (i + 1) (i : Int)

/-- Specification-side count of the rows the paint loop lays out starting at
vertical offset `y`: layout stops before the first row that would cross
`bottom`. -/
def rows_laid_out (heights : List Nat) (bottom y : Nat) : Nat :=
  match heights with
  | [] => 0
  | h :: rest =>
      if bottom < y + h then 0
      else 1 + rows_laid_out rest bottom (y + h + 4)

/-! ### Dialog accept validation (`ImportForeign.accept`, `MultiSplit.accept`) -/

/-- Outcome of an `accept` slot: whether the base `Dialog.accept` was
reached (closing the dialog as accepted) and whether a modal error dialog
was shown instead. -/
structure AcceptResult : Type where
  base_accept_called : Bool
  error_shown : Bool
deriving DecidableEq

/-- `ImportForeign.accept` (lines 222-226): an empty source-path field
shows a modal error dialog and returns without reaching `Dialog.accept`;
otherwise the base accept runs. (`error_dialog` itself is external to
`src/`; only its occurrence is modelled.) -/
def importForeign_accept (src_text : List Char) : AcceptResult :=
  if src_text = [] then { base_accept_called := false, error_shown := true }
  else { base_accept_called := true, error_shown := false }

/-- `MultiSplit.accept` (lines 145-149). Modelled from the spec: the XPath
validity test `self._xpath.check()` lives in `XPathEdit`, outside `src/`,
so validity is taken as a boolean oracle; an invalid expression shows a
modal error dialog and returns without reaching `Dialog.accept`. -/
def multiSplit_accept (xpath_valid : Bool) : AcceptResult :=
  if xpath_valid then { base_accept_called := true, error_shown := false }
  else { base_accept_called := false, error_shown := true }

/-! ### `ImportForeign` data derivation -/

/-- Python `str.strip()`: drop whitespace from both ends. -/
def pyStrip (s : List Char) : List Char :=
  ((s.dropWhile Char.isWhitespace).reverse.dropWhile Char.isWhitespace).reverse

/-- The first component of Python `s.rpartition(sep)`: everything before the
last occurrence of `sep`, empty when `sep` does not occur. -/
def rpartition_before (s : List Char) (sep : Char) : List Char :=
  if sep ∈ s then s.take (s.length - 1 - s.reverse.indexOf sep) else []

/-- `ImportForeign.data` (lines 228-234): both fields whitespace-stripped;
when the stripped destination is empty it is derived from the stripped
source as `src.rpartition('.')[0] + '.epub'`. -/
def importForeign_data (src_text dest_text : List Char) : List Char × List Char :=
  let src := pyStrip src_text
  let dest0 := pyStrip dest_text
  let dest := if dest0 = [] then rpartition_before src '.' ++ ".epub".toList else dest0
  (src, dest)

/-- `ImportForeign.choose_destination` (lines 214-220) post-processing of a
chooser-returned path: append `'.epub'` unless the lower-cased path already
ends with `'.epub'`. -/
def choose_destination_path (path : List Char) : List Char :=
  if ".epub".toList.isSuffixOf (path.map Char.toLower) then path
  else path ++ ".epub".toList

/-! ### Dialog geometry persistence (`Dialog.__init__`, `accept`, `reject`) -/

/-- The preferences key `name + '-geometry'`. -/
def geometry_key (name : List Char) : List Char := name ++ "-geometry".toList

/-- The preferences key `name + '-splitter-state'`. -/
def splitter_key (name : List Char) : List Char := name ++ "-splitter-state".toList

/-- The `tprefs.set` writes performed by `Dialog.accept` (lines 49-53)
before delegating to `QDialog.accept`: the saved geometry under the
geometry key and, when the dialog has a splitter, the splitter state under
the splitter key. Values are opaque byte blobs, modelled by a type `V`. -/
def dialog_accept_writes {V : Type} (name : List Char) (geometry : V)
    (splitter : Option V) : List (List Char × V) :=
  (geometry_key name, geometry) ::
    (match splitter with
     | some st => [(splitter_key name, st)]
     | none => [])

/-- The `tprefs.set` writes performed by `Dialog.reject` (lines 55-59),
mirroring `Dialog.accept`. -/
def dialog_reject_writes {V : Type} (name : List Char) (geometry : V)
    (splitter : Option V) : List (List Char × V) :=
  (geometry_key name, geometry) ::
    (match splitter with
     | some st => [(splitter_key name, st)]
     | none => [])

/-- Apply a list of key/value writes to a preferences store in order
(later writes shadow earlier ones). -/
def apply_writes {V : Type} (prefs : List Char → Option V)
    (ws : List (List Char × V)) : List Char → Option V :=
  ws.foldl (fun m w k => if k = w.1 then some w.2 else m k) prefs

/-- The geometry restored by `Dialog.__init__` (lines 40-43): read the
geometry key; a stored value is passed to `restoreGeometry`, an absent key
leaves the default geometry from `resize(sizeHint())` in place. -/
def dialog_init_geometry {V : Type} (prefs : List Char → Option V)
    (name : List Char) (defaultGeom : V) : V :=
  match prefs (geometry_key name) with
  | some g => g
  | none => defaultGeom

/-- The splitter state restored by `Dialog.__init__` (lines 44-47) when a
splitter is present: a stored value is passed to `restoreState`, an absent
key leaves the default state. -/
def dialog_init_splitter {V : Type} (prefs : List Char → Option V)
    (name : List Char) (defaultState : V) : V :=
  match prefs (splitter_key name) with
  | some st => st
  | none => defaultState

/-! ### Python dicts and the `InsertSemantics` diff -/

/-- Lookup in a Python dict modelled as an association list
(`m.get(k, None)` / `m[k]`): the first binding of the key, if any. -/
def dict_get {K V : Type} [DecidableEq K] (m : List (K × V)) (k : K) : Option V :=
  match m with
  | [] => none
  | e :: rest => if e.1 = k then some e.2 else dict_get rest k

/-- Python dict assignment `m[k] = v`: replace the binding in place when the
key is present, append otherwise. -/
def dict_set {K V : Type} [DecidableEq K] (m : List (K × V)) (k : K) (v : V) :
    List (K × V) :=
  match m with
  | [] => [(k, v)]
  | e :: rest => if e.1 = k then (k, v) :: rest else e :: dict_set rest k v

/-- `InsertSemantics.changed_type_map` (lines 818-820):
`{k: v for k, v in final.iteritems() if v != original.get(k, None)}` — the
entries of the final map whose value differs from the original snapshot's
value at the same key (an absent key compares as `None`, which never equals
a present value). -/
def changed_type_map {K V : Type} [DecidableEq K] [DecidableEq V]
    (final original : List (K × V)) : List (K × V) :=
  final.filter (fun e => dict_get original e.1 ≠ some e.2)

/-- `InsertSemantics.apply_changes` (lines 822-830) as the sequence of
`set_guide_item` writes it performs: one write per entry of
`changed_type_map`, carrying the entry's key, its (possibly translated)
title from the known-type map, and the entry's value. -/
def apply_changes {K V T : Type} [DecidableEq K] [DecidableEq V]
    (known : K → T) (final original : List (K × V)) : List (K × T × V) :=
  (changed_type_map final original).map (fun e => (e.1, known e.1, e.2))

/-! ### Helper lemmas -/

/-- `change_current` unfolded on a non-empty result set. -/
lemma change_current_of_ne (s : ResultsState) (delta : Int) (h : s.num_results ≠ 0) :
    change_current s delta =
      if 0 ≤ s.current_result + delta ∧ s.current_result + delta ≤ s.max_result
      then { s with current_result := s.current_result + delta } else s := by
  simp [change_current, h]

/-- Filtering commutes with deduplication. -/
lemma dedup_filter_comm {α : Type} [DecidableEq α] (p : α → Bool) (l : List α) :
    (l.dedup).filter p = (l.filter p).dedup := by
  induction l with
  | nil => simp
  | cons a l ih =>
    by_cases ha : a ∈ l
    · rw [List.dedup_cons_of_mem ha]
      by_cases hp : p a
      · rw [List.filter_cons_of_pos hp, List.dedup_cons_of_mem (List.mem_filter.2 ⟨ha, hp⟩)]
        exact ih
      · rw [List.filter_cons_of_neg (by simpa using hp)]
        exact ih
    · rw [List.dedup_cons_of_not_mem ha]
      by_cases hp : p a
      · rw [List.filter_cons_of_pos hp, List.filter_cons_of_pos hp,
          List.dedup_cons_of_not_mem (fun hm => ha (List.mem_filter.1 hm).1), ih]
      · rw [List.filter_cons_of_neg (by simpa using hp),
          List.filter_cons_of_neg (by simpa using hp)]
        exact ih

/-- Removing the sentinel entries from the raw position collection does not
change the sanitized, descending-sorted position list. -/
lemma sortedPositions_filter_sentinel (positions : List Int) :
    sortedPositions (positions.filter (fun p => p ≠ -1)) = sortedPositions positions := by
  unfold sortedPositions
  rw [← dedup_filter_comm, List.filter_filter]
  simp

/-! ### Claim theorems -/

/-- Claim C6: `make_highlighted_text` with an empty position set returns the
input string unmodified aside from XML-escaping; no span markup is
inserted. -/
theorem make_highlighted_text_empty_positions (emph S : List Char) :
    make_highlighted_text emph S [] = prepare_string_for_xml S := rfl

/-- Claim C9: the candidate string is XML-escaped before the positions are
applied, so positions index into the escaped string: in `"a&bc"` the raw
character at index 2 is `'b'`, yet position 2 emphasizes `'a'` (the second
character of the expanded entity `&amp;`). -/
theorem make_highlighted_text_indexes_escaped_string :
    prepare_string_for_xml ("a&bc".toList) = "a&amp;bc".toList ∧
    ("a&bc".toList)[2]? = some 'b' ∧
    make_highlighted_text resultsEMPH ("a&bc".toList) [2] =
      "a&".toList ++ spanOpen resultsEMPH ++ "a".toList ++ spanClose ++ "mp;bc".toList ∧
    ('a' : Char) ≠ 'b' := by decide

/-- Claim C4: selection navigation clamps and never wraps: on an empty
result set `change_current` is a no-op; on a non-empty set with
`0 ≤ current_result ≤ max_result`, stepping `-1` from `0` and `+1` from
`max_result` are no-ops, and after any step the selection invariant
`0 ≤ current_result ≤ max_result` still holds. -/
theorem change_current_clamps (s : ResultsState) (delta : Int) :
    (s.num_results = 0 → change_current s delta = s) ∧
    (s.num_results ≠ 0 → 0 ≤ s.current_result → s.current_result ≤ s.max_result →
      (s.current_result = 0 → change_current s (-1) = s) ∧
      (s.current_result = s.max_result → change_current s 1 = s) ∧
      0 ≤ (change_current s delta).current_result ∧
      (change_current s delta).current_result ≤ (change_current s delta).max_result) := by
  constructor
  · intro h
    simp [change_current, h]
  · intro h h0 hmax
    refine ⟨fun hc => ?_, fun hc => ?_, ?_, ?_⟩
    · rw [change_current_of_ne s (-1) h, if_neg (by omega)]
    · rw [change_current_of_ne s 1 h, if_neg (by omega)]
    · rw [change_current_of_ne s delta h]
      split
      · simpa using by omega
      · simpa using h0
    · rw [change_current_of_ne s delta h]
      split
      · simpa using by omega
      · simpa using hmax

/-- Witness for C4 at the concrete state `⟨3, 0, 2, -1⟩`. -/
theorem change_current_clamps_witness :
    change_current ⟨3, 0, 2, -1⟩ (-1) = ⟨3, 0, 2, -1⟩ ∧
    0 ≤ (change_current ⟨3, 0, 2, -1⟩ 1).current_result ∧
    (change_current ⟨3, 0, 2, -1⟩ 1).current_result ≤
      (change_current ⟨3, 0, 2, -1⟩ 1).max_result := by
  have h := (change_current_clamps ⟨3, 0, 2, -1⟩ 1).2 (by decide) (by decide) (by decide)
  exact ⟨((change_current_clamps ⟨3, 0, 2, -1⟩ (-1)).2 (by decide) (by decide) (by decide)).1 rfl,
    h.2.2.1, h.2.2.2⟩

/-- Claim C7: validation failures block acceptance and show a modal error:
an empty import source and an invalid XPath expression each leave the base
`Dialog.accept` unreached and show an error dialog. -/
theorem accept_validation_blocks (src_text : List Char) (xpath_valid : Bool)
    (h1 : src_text = []) (h2 : xpath_valid = false) :
    importForeign_accept src_text = ⟨false, true⟩ ∧
    multiSplit_accept xpath_valid = ⟨false, true⟩ := by
  subst h1; subst h2; exact ⟨rfl, rfl⟩

/-- Witness for C7 at the concrete inputs. -/
theorem accept_validation_blocks_witness :
    importForeign_accept [] = ⟨false, true⟩ ∧ multiSplit_accept false = ⟨false, true⟩ :=
  accept_validation_blocks [] false rfl rfl

/-- Counterexample to claim C3 as stated: with 12 results of row height 10
in a widget of bottom 1000, `Results.__call__` caps `max_result` at 10, but
the subsequent paint loop re-raises it to 11, so 12 rows become addressable
although `min(N, C, 11) = 11`. -/
theorem results_windowing_counterexample :
    (results_call_state 12).max_result = 10 ∧
    paint_loop (List.replicate 12 10) 1000 0 0 ((results_call_state 12).max_result) = 11 := by
  decide

/-- Claim C3 (amended): immediately after `Results.__call__` with `N`
results, `max_result = min(10, N - 1)`; a paint pass then overwrites
`max_result` with the index of the last laid-out row (leaving it unchanged
when no row fits), where layout stops before the first row that would cross
the widget's bottom — so after a paint `min(N, C)` rows are addressable,
without a persistent cap of 11. -/
theorem results_windowing_amended (N : Nat) (heights : List Nat) (bottom y i : Nat) (mr : Int) :
    (results_call_state N).max_result = min 10 ((N : Int) - 1) ∧
    paint_loop heights bottom y i mr =
      (if rows_laid_out heights bottom y = 0 then mr
       else (i : Int) + rows_laid_out heights bottom y - 1) := by
  refine ⟨rfl, ?_⟩
  induction heights generalizing y i mr with
  | nil => simp [paint_loop, rows_laid_out]
  | cons h rest ih =>
    by_cases hb : bottom < y + h
    · simp [paint_loop, rows_laid_out, hb]
    · rw [paint_loop, rows_laid_out, if_neg hb, if_neg hb, ih]
      by_cases hz : rows_laid_out rest bottom (y + h + 4) = 0
      · simp [hz]
      · rw [if_neg hz, if_neg (by omega)]
        push_cast
        omega

/-- Counterexample to claim C2 as stated: in `NamesDelegate.paint`, a
position collection containing `-1` routes to the plain-text path, so the
rendered output differs from the output for the collection with `-1`
removed. -/
theorem names_delegate_sentinel_counterexample :
    namesDelegate_render ("ab".toList) (some [-1, 0]) ≠
      namesDelegate_render ("ab".toList) (some (([-1, 0] : List Int).filter (fun p => p ≠ -1))) := by
  decide

/-- Claim C2 (amended): in `make_highlighted_text` removing the `-1`
sentinel entries from the position collection never changes the output, and
no character is emphasized on account of `-1`; in `NamesDelegate.paint`,
however, a collection containing `-1` disables the highlight path entirely
and the text is drawn plain (so its output is not the output for the
`-1`-free collection). -/
theorem highlight_sentinel_amended (emph S : List Char) (positions : List Int)
    (text : List Char) (ps : List Int) (h : (-1 : Int) ∈ ps) :
    make_highlighted_text emph S (positions.filter (fun p => p ≠ -1)) =
      make_highlighted_text emph S positions ∧
    namesDelegate_render text (some ps) = PaintOutput.plain text := by
  constructor
  · unfold make_highlighted_text
    rw [sortedPositions_filter_sentinel]
  · simp [namesDelegate_render, h]

/-- Witness for the amended C2 at concrete inputs. -/
theorem highlight_sentinel_amended_witness :
    make_highlighted_text resultsEMPH ("ab".toList) (([-1, 0] : List Int).filter (fun p => p ≠ -1)) =
      make_highlighted_text resultsEMPH ("ab".toList) [-1, 0] ∧
    namesDelegate_render ("ab".toList) (some [-1, 0]) = PaintOutput.plain ("ab".toList) :=
  highlight_sentinel_amended resultsEMPH ("ab".toList) [-1, 0] ("ab".toList) [-1, 0] (by decide)

/-- Counterexample to claim C10 as stated: a chooser path already ending in
upper-case `.EPUB` is returned unchanged, so the chosen destination does not
always end with the literal `'.epub'`. -/
theorem choose_destination_counterexample :
    choose_destination_path ("A.EPUB".toList) = "A.EPUB".toList ∧
    ".epub".toList.isSuffixOf ("A.EPUB".toList) = false := by decide

/-- Claim C10 (amended): with a blank destination field, `data` derives the
destination from the source as everything before the last `'.'` followed by
`'.epub'` (just `'.epub'` when the source has no dot), both components
whitespace-stripped; acceptance is blocked exactly by an empty (unstripped)
source text; and a destination chosen via the save chooser always ends with
`'.epub'` up to letter case (it is appended unless the lower-cased path
already ends with it). -/
theorem importForeign_data_amended (src_text dest_text path : List Char)
    (hdest : pyStrip dest_text = []) :
    importForeign_data src_text dest_text =
      (pyStrip src_text, rpartition_before (pyStrip src_text) '.' ++ ".epub".toList) ∧
    (importForeign_accept src_text).base_accept_called = !src_text.isEmpty ∧
    ".epub".toList.isSuffixOf ((choose_destination_path path).map Char.toLower) = true := by
  refine ⟨?_, ?_, ?_⟩
  · simp [importForeign_data, hdest]
  · cases src_text <;> simp [importForeign_accept]
  · unfold choose_destination_path
    split
    · assumption
    · rw [List.map_append]
      have hl : (".epub".toList).map Char.toLower = ".epub".toList := by decide
      rw [hl, List.isSuffixOf_iff_suffix]
      exact List.suffix_append _ _

/-- Witness for the amended C10 at concrete inputs. -/
theorem importForeign_data_amended_witness :
    importForeign_data ("book.docx".toList) ("  ".toList) =
      (pyStrip ("book.docx".toList),
        rpartition_before (pyStrip ("book.docx".toList)) '.' ++ ".epub".toList) ∧
    (importForeign_accept ("book.docx".toList)).base_accept_called =
      !("book.docx".toList).isEmpty ∧
    ".epub".toList.isSuffixOf ((choose_destination_path ("x".toList)).map Char.toLower) = true :=
  importForeign_data_amended ("book.docx".toList) ("  ".toList) ("x".toList) (by decide)

/-- The two persistence keys of a dialog never collide. -/
lemma geometry_key_ne_splitter_key (name : List Char) :
    geometry_key name ≠ splitter_key name := by
  unfold geometry_key splitter_key
  intro h
  have h2 : "-geometry".toList = "-splitter-state".toList := List.append_cancel_left h
  exact absurd h2 (by decide)

/-- Claim C8: dialog geometry persistence: `accept` and `reject` perform the
same preference writes (the window geometry under `name + '-geometry'` and,
when a splitter exists, its state under `name + '-splitter-state'`);
construction reads the same keys back, a stored geometry and splitter state
round-trip exactly, and an absent key falls back to the default geometry. -/
theorem dialog_geometry_persistence {V : Type} (prefs : List Char → Option V)
    (name : List Char) (geometry defaultGeom defaultState splitterState : V)
    (splitter : Option V)
    (habsent : prefs (geometry_key name) = none) :
    dialog_accept_writes name geometry splitter = dialog_reject_writes name geometry splitter ∧
    dialog_init_geometry (apply_writes prefs (dialog_accept_writes name geometry splitter))
      name defaultGeom = geometry ∧
    dialog_init_splitter (apply_writes prefs (dialog_accept_writes name geometry (some splitterState)))
      name defaultState = splitterState ∧
    dialog_init_geometry prefs name defaultGeom = defaultGeom := by
  refine ⟨rfl, ?_, ?_, ?_⟩
  · cases splitter with
    | none => simp [dialog_accept_writes, apply_writes, dialog_init_geometry]
    | some st =>
        simp [dialog_accept_writes, apply_writes, dialog_init_geometry,
          geometry_key_ne_splitter_key name]
  · simp [dialog_accept_writes, apply_writes, dialog_init_splitter]
  · simp [dialog_init_geometry, habsent]

/-- Witness for C8 at concrete inputs (an initially empty store over
`V := Nat`). -/
theorem dialog_geometry_persistence_witness :
    dialog_accept_writes ("quick-open".toList) (5 : Nat) (some 7) =
      dialog_reject_writes ("quick-open".toList) 5 (some 7) ∧
    dialog_init_geometry
      (apply_writes (fun _ => none) (dialog_accept_writes ("quick-open".toList) 5 (some 7)))
      ("quick-open".toList) 0 = 5 ∧
    dialog_init_splitter
      (apply_writes (fun _ => none) (dialog_accept_writes ("quick-open".toList) 5 (some 7)))
      ("quick-open".toList) 0 = 7 ∧
    dialog_init_geometry (fun _ => (none : Option Nat)) ("quick-open".toList) 0 = 0 :=
  dialog_geometry_persistence (fun _ => none) ("quick-open".toList) 5 0 0 7 (some 7) rfl

/-- A key bound by no entry looks up to `none`. -/
lemma dict_get_eq_none {K V : Type} [DecidableEq K] (m : List (K × V)) (k : K)
    (h : ∀ e ∈ m, e.1 ≠ k) : dict_get m k = none := by
  induction m with
  | nil => rfl
  | cons e rest ih =>
      rw [dict_get, if_neg (h e (List.mem_cons_self e rest))]
      exact ih fun e' he' => h e' (List.mem_cons_of_mem e he')

/-- The keys after a dict assignment are the old keys plus the assigned
key. -/
lemma mem_keys_dict_set {K V : Type} [DecidableEq K] (m : List (K × V)) (k : K) (v : V)
    (a : K) : a ∈ (dict_set m k v).map Prod.fst ↔ a ∈ m.map Prod.fst ∨ a = k := by
  induction m with
  | nil => simp [dict_set]
  | cons e rest ih =>
      by_cases he : e.1 = k
      · rw [dict_set, if_pos he]
        simp [he]
        tauto
      · rw [dict_set, if_neg he]
        simp [ih]
        tauto

/-- Dict assignment preserves distinctness of keys. -/
lemma nodup_keys_dict_set {K V : Type} [DecidableEq K] (m : List (K × V)) (k : K) (v : V)
    (h : (m.map Prod.fst).Nodup) : ((dict_set m k v).map Prod.fst).Nodup := by
  induction m with
  | nil => simp [dict_set]
  | cons e rest ih =>
      rw [List.map_cons, List.nodup_cons] at h
      by_cases he : e.1 = k
      · rw [dict_set, if_pos he, List.map_cons, List.nodup_cons]
        exact ⟨he ▸ h.1, h.2⟩
      · rw [dict_set, if_neg he, List.map_cons, List.nodup_cons]
        refine ⟨fun hm => ?_, ih h.2⟩
        rcases (mem_keys_dict_set rest k v e.1).1 hm with hm' | hm'
        · exact h.1 hm'
        · exact he hm'

/-- A fold of dict assignments over a distinct-keyed dict keeps the keys
distinct. -/
lemma nodup_keys_foldl_dict_set {K V : Type} [DecidableEq K]
    (edits : List (K × V)) (m : List (K × V)) (h : (m.map Prod.fst).Nodup) :
    (((edits.foldl (fun acc e => dict_set acc e.1 e.2) m)).map Prod.fst).Nodup := by
  induction edits generalizing m with
  | nil => exact h
  | cons e rest ih => exact ih _ (nodup_keys_dict_set m e.1 e.2 h)

/-- Lookup in `changed_type_map`: a key maps to the final value exactly when
the final and original lookups disagree (distinct final keys assumed). -/
lemma dict_get_changed_type_map {K V : Type} [DecidableEq K] [DecidableEq V]
    (final original : List (K × V)) (k : K) (h : (final.map Prod.fst).Nodup) :
    dict_get (changed_type_map final original) k =
      (if dict_get final k = dict_get original k then none else dict_get final k) := by
  induction final with
  | nil =>
      rw [changed_type_map]
      simp only [List.filter_nil, dict_get]
      split <;> rfl
  | cons e rest ih =>
      rw [List.map_cons, List.nodup_cons] at h
      by_cases he : e.1 = k
      · by_cases hp : dict_get original e.1 = some e.2
        · rw [changed_type_map, List.filter_cons_of_neg (by simpa using hp)]
          have hcr : dict_get (changed_type_map rest original) k = none :=
            dict_get_eq_none _ k fun e' he' hk =>
              h.1 (by
                rw [he, ← hk]
                exact List.mem_map_of_mem Prod.fst (List.mem_of_mem_filter he'))
          rw [changed_type_map] at hcr
          rw [hcr, dict_get, if_pos he, if_pos (by rw [← he, hp])]
        · rw [changed_type_map, List.filter_cons_of_pos (by simpa using hp)]
          rw [dict_get, if_pos he, dict_get, if_pos he,
            if_neg (by rw [← he]; exact fun hh => hp hh.symm)]
      · rw [changed_type_map, List.filter_cons]
        have htail : dict_get (List.filter (fun e' => decide (¬dict_get original e'.1 = some e'.2)) rest) k =
            (if dict_get rest k = dict_get original k then none else dict_get rest k) := by
          have := ih h.2
          rwa [changed_type_map] at this
        split
        · rw [dict_get, if_neg he, htail, dict_get, if_neg he]
        · rw [htail, dict_get, if_neg he]

/-- Claim C5: for every edit sequence applied after the dialog opens,
`changed_type_map` contains exactly the keys of the final map whose value
differs from the original snapshot's (absent keys comparing as `None`), and
`apply_changes` emits one guide write per changed entry — its written keys
are exactly the keys of `changed_type_map`. -/
theorem semantics_diff {K V T : Type} [DecidableEq K] [DecidableEq V]
    (known : K → T) (original edits : List (K × V)) (k : K)
    (hnd : (original.map Prod.fst).Nodup) :
    dict_get (changed_type_map (edits.foldl (fun m e => dict_set m e.1 e.2) original) original) k =
      (if dict_get (edits.foldl (fun m e => dict_set m e.1 e.2) original) k = dict_get original k
       then none
       else dict_get (edits.foldl (fun m e => dict_set m e.1 e.2) original) k) ∧
    (apply_changes known (edits.foldl (fun m e => dict_set m e.1 e.2) original) original).map
        (fun w => w.1) =
      (changed_type_map (edits.foldl (fun m e => dict_set m e.1 e.2) original) original).map
        Prod.fst := by
  constructor
  · exact dict_get_changed_type_map _ original k (nodup_keys_foldl_dict_set edits original hnd)
  · simp [apply_changes, List.map_map, Function.comp_def, Prod.fst]

/-- Witness for C5 at concrete inputs: original `{1 ↦ 10}`, edits setting
`1 ↦ 20` then `2 ↦ 30` then `1 ↦ 10` back. -/
theorem semantics_diff_witness :
    dict_get (changed_type_map
        (([(1, 20), (2, 30), (1, 10)] : List (Nat × Nat)).foldl
          (fun m e => dict_set m e.1 e.2) [(1, 10)]) [(1, 10)]) 2 =
      (if dict_get (([(1, 20), (2, 30), (1, 10)] : List (Nat × Nat)).foldl
            (fun m e => dict_set m e.1 e.2) [(1, 10)]) 2 = dict_get [(1, 10)] 2
       then none
       else dict_get (([(1, 20), (2, 30), (1, 10)] : List (Nat × Nat)).foldl
            (fun m e => dict_set m e.1 e.2) [(1, 10)]) 2) ∧
    (apply_changes (fun k => k + 100)
        (([(1, 20), (2, 30), (1, 10)] : List (Nat × Nat)).foldl
          (fun m e => dict_set m e.1 e.2) [(1, 10)]) [(1, 10)]).map (fun w => w.1) =
      (changed_type_map
        (([(1, 20), (2, 30), (1, 10)] : List (Nat × Nat)).foldl
          (fun m e => dict_set m e.1 e.2) [(1, 10)]) [(1, 10)]).map Prod.fst :=
  semantics_diff (fun k => k + 100) [(1, 10)] [(1, 20), (2, 30), (1, 10)] 2 (by decide)

/-- `get_char` at an in-range index is the singleton of that character. -/
lemma get_char_eq (text : List Char) (n : Nat) (h : n < text.length) :
    get_char text n = [text[n]] := by
  unfold get_char
  rw [List.getElem?_eq_getElem h]

/-- `get_char` past the end is empty. -/
lemma get_char_eq_nil (text : List Char) (n : Nat) (h : text.length ≤ n) :
    get_char text n = [] := by
  unfold get_char
  rw [List.getElem?_eq_none h]

/-- Emphasizing a position inside the left part of an appended text only
rewrites the left part. -/
lemma emphasize_at_append (emph A B : List Char) (n : Nat) (h : n < A.length) :
    emphasize_at emph (A ++ B) n = emphasize_at emph A n ++ B := by
  have h' : n < (A ++ B).length := by rw [List.length_append]; omega
  simp only [emphasize_at, get_char_eq (A ++ B) n h', get_char_eq A n h,
    List.getElem_append_left h, List.length_cons, List.length_nil]
  rw [List.take_append_of_le_length (Nat.le_of_lt h),
    List.drop_append_of_le_length (by omega)]
  simp [List.append_assoc]

/-- Emphasizing never shrinks the text. -/
lemma length_le_emphasize_at (emph text : List Char) (n : Nat) :
    text.length ≤ (emphasize_at emph text n).length := by
  by_cases h : n < text.length
  · simp only [emphasize_at, get_char_eq text n h]
    simp [spanOpen, spanClose]
    omega
  · simp only [emphasize_at, get_char_eq_nil text n (by omega)]
    simp
    omega

/-- Processing positions that all lie inside the left part of an appended
text leaves the right part untouched. -/
lemma foldl_emphasize_append (emph : List Char) (ps : List Int) (A B : List Char)
    (h : ∀ p ∈ ps, 0 ≤ p ∧ p < (A.length : Int)) :
    ps.foldl (fun t p => emphasize_at emph t p.toNat) (A ++ B) =
      ps.foldl (fun t p => emphasize_at emph t p.toNat) A ++ B := by
  induction ps generalizing A with
  | nil => rfl
  | cons p rest ih =>
      have hp := h p (List.mem_cons_self _ _)
      have hn : p.toNat < A.length := by omega
      rw [List.foldl_cons, List.foldl_cons, emphasize_at_append emph A B p.toNat hn]
      refine ih (emphasize_at emph A p.toNat) fun q hq => ?_
      have h1 := h q (List.mem_cons_of_mem _ hq)
      have h2 := length_le_emphasize_at emph A p.toNat
      exact ⟨h1.1, by omega⟩

/-- `wrap_each` distributes over appending, shifting the running index. -/
lemma wrap_each_append (emph : List Char) (ps : List Int) (A B : List Char) (i : Nat) :
    wrap_each emph ps (A ++ B) i =
      wrap_each emph ps A i ++ wrap_each emph ps B (i + A.length) := by
  induction A generalizing i with
  | nil => simp [wrap_each]
  | cons c rest ih =>
      rw [List.cons_append, wrap_each, wrap_each, ih (i + 1), List.length_cons]
      have harith : i + 1 + rest.length = i + (rest.length + 1) := by omega
      rw [harith, ← List.append_assoc]

/-- `wrap_each` is the identity when every listed position lies before the
running index. -/
lemma wrap_each_of_forall_lt (emph : List Char) (ps : List Int) (B : List Char) (i : Nat)
    (h : ∀ p ∈ ps, p < (i : Int)) : wrap_each emph ps B i = B := by
  induction B generalizing i with
  | nil => rfl
  | cons c rest ih =>
      rw [wrap_each, if_neg (fun hm => absurd (h _ hm) (by omega)),
        ih (i + 1) (fun p hp => by have := h p hp; omega)]
      simp

/-- `wrap_each` only depends on position membership over the visited index
range. -/
lemma wrap_each_congr (emph : List Char) (ps qs : List Int) (A : List Char) (i : Nat)
    (h : ∀ j : Nat, i ≤ j → j < i + A.length → (((j : Int) ∈ ps) ↔ ((j : Int) ∈ qs))) :
    wrap_each emph ps A i = wrap_each emph qs A i := by
  induction A generalizing i with
  | nil => rfl
  | cons c rest ih =>
      rw [wrap_each, wrap_each]
      have hi : ((i : Int) ∈ ps) ↔ ((i : Int) ∈ qs) :=
        h i (Nat.le_refl i) (by simp)
      congr 1
      · by_cases hm : (i : Int) ∈ ps
        · rw [if_pos hm, if_pos (hi.1 hm)]
        · rw [if_neg hm, if_neg (fun hm' => hm (hi.2 hm'))]
      · exact ih (i + 1) fun j h1 h2 => h j (by omega) (by
          rw [List.length_cons]
          omega)

/-- The heart of claim C1: folding the span-insertion step over a strictly
descending list of in-range positions emphasizes each position's original
character in place. -/
lemma foldl_emphasize_eq_wrap_each (emph : List Char) (ps : List Int) (T : List Char)
    (hs : ps.Pairwise (fun a b => a > b))
    (hr : ∀ p ∈ ps, 0 ≤ p ∧ p < (T.length : Int)) :
    ps.foldl (fun t p => emphasize_at emph t p.toNat) T = wrap_each emph ps T 0 := by
  induction ps generalizing T with
  | nil => exact (wrap_each_of_forall_lt emph [] T 0 (by simp)).symm
  | cons p rest ih =>
      obtain ⟨hp0, hpl⟩ := hr p (List.mem_cons_self _ _)
      have hnl : p.toNat < T.length := by omega
      have hrest_lt : ∀ q ∈ rest, q < p := fun q hq => (List.pairwise_cons.1 hs).1 q hq
      have hlen_take : (T.take p.toNat).length = p.toNat := by
        rw [List.length_take]
        omega
      rw [List.foldl_cons]
      have hsplit : emphasize_at emph T p.toNat =
          T.take p.toNat ++
            (spanOpen emph ++ [T[p.toNat]] ++ spanClose ++ T.drop (p.toNat + 1)) := by
        simp only [emphasize_at, get_char_eq T p.toNat hnl, List.length_cons,
          List.length_nil]
        simp [List.append_assoc]
      rw [hsplit]
      have hbounds : ∀ q ∈ rest, 0 ≤ q ∧ q < ((T.take p.toNat).length : Int) := by
        intro q hq
        have h1 := hr q (List.mem_cons_of_mem _ hq)
        have h2 := hrest_lt q hq
        rw [hlen_take]
        exact ⟨h1.1, by omega⟩
      rw [foldl_emphasize_append emph rest _ _ hbounds,
        ih (T.take p.toNat) (List.pairwise_cons.1 hs).2 hbounds]
      have hT : T = T.take p.toNat ++ (T[p.toNat] :: T.drop (p.toNat + 1)) := by
        conv_lhs => rw [← List.take_append_drop p.toNat T]
        rw [List.drop_eq_getElem_cons hnl]
      conv_rhs => rw [hT]
      rw [wrap_each_append, hlen_take, Nat.zero_add]
      have hcongr : wrap_each emph (p :: rest) (T.take p.toNat) 0 =
          wrap_each emph rest (T.take p.toNat) 0 := by
        refine wrap_each_congr emph _ _ _ 0 fun j h1 h2 => ?_
        rw [Nat.zero_add, hlen_take] at h2
        simp only [List.mem_cons]
        constructor
        · rintro (hj | hj)
          · exact absurd hj (by omega)
          · exact hj
        · exact fun hj => Or.inr hj
      have hsecond : wrap_each emph (p :: rest) (T[p.toNat] :: T.drop (p.toNat + 1)) p.toNat =
          spanOpen emph ++ [T[p.toNat]] ++ spanClose ++ T.drop (p.toNat + 1) := by
        rw [wrap_each, if_pos (List.mem_cons.2 (Or.inl (by omega)))]
        rw [wrap_each_of_forall_lt emph (p :: rest) _ (p.toNat + 1) (by
          intro q hq
          rcases List.mem_cons.1 hq with hq' | hq'
          · omega
          · have := hrest_lt q hq'
            omega)]
      rw [hcongr, hsecond]

/-- The sanitized position list consists of the non-sentinel members of the
raw collection. -/
lemma mem_sortedPositions (positions : List Int) (p : Int) :
    p ∈ sortedPositions positions ↔ p ∈ positions ∧ p ≠ -1 := by
  unfold sortedPositions
  rw [List.mem_insertionSort, List.mem_filter, List.mem_dedup]
  simp

/-- Claim C1: `make_highlighted_text` processes the sanitized positions in
strictly descending order, and for valid positions into the escaped string
the result emphasizes, at each position, exactly the character that was at
that index before any markup was inserted (later insertions never shift an
earlier target). -/
theorem make_highlighted_text_descending_inplace (emph S : List Char) (positions : List Int)
    (hv : ∀ p ∈ positions, p ≠ -1 →
      0 ≤ p ∧ p < ((prepare_string_for_xml S).length : Int)) :
    (sortedPositions positions).Pairwise (fun a b => a > b) ∧
    make_highlighted_text emph S positions =
      wrap_each emph (sortedPositions positions) (prepare_string_for_xml S) 0 := by
  have hsorted : (sortedPositions positions).Pairwise (fun a b => a > b) := by
    have h1 : List.Pairwise (fun a b => a ≥ b) (sortedPositions positions) :=
      List.sorted_insertionSort _ _
    have h2 : (sortedPositions positions).Nodup := by
      unfold sortedPositions
      exact ((List.perm_insertionSort _ _).nodup_iff).2
        ((List.nodup_dedup positions).filter _)
    exact (h1.and h2).imp fun hab => lt_of_le_of_ne hab.1 (Ne.symm hab.2)
  refine ⟨hsorted, ?_⟩
  unfold make_highlighted_text
  exact foldl_emphasize_eq_wrap_each emph _ _ hsorted fun p hp =>
    hv p ((mem_sortedPositions positions p).1 hp).1 ((mem_sortedPositions positions p).1 hp).2

/-- Witness for C1 at the concrete inputs
`emph = "x"`, `S = "abc"`, `positions = [2, 0, 2, -1]`. -/
theorem make_highlighted_text_descending_inplace_witness :
    (sortedPositions [2, 0, 2, -1]).Pairwise (fun a b => a > b) ∧
    make_highlighted_text ("x".toList) ("abc".toList) [2, 0, 2, -1] =
      wrap_each ("x".toList) (sortedPositions [2, 0, 2, -1])
        (prepare_string_for_xml ("abc".toList)) 0 :=
  make_highlighted_text_descending_inplace ("x".toList) ("abc".toList) [2, 0, 2, -1]
    (by decide)

end CalibreWidgets
